import Mathlib

/-!
Verification of the governance-economics modeling engine of the
On-Chain-Futarchy-Governance-System repository.

The development shallowly embeds the numeric core of the repository in Lean:

* `SybilSim` — the phased position-limit state machine and the reputation
  decay function of `simulation_and_analysis/sybil_simulation.py`
  (`ReputationWeightedMarket.can_participate_in_genesis`,
  `ReputationWeightedMarket.calculate_position_limit`,
  `simulate_reputation_decay_resistance`).
* `PredictionAccuracy` — the pure 5-tier position-limit fraction of
  `simulation_and_analysis/prediction_accuracy.py`
  (`ReputationWeightedMarket.calculate_position_limit`).
* `CartelAnalysis` — the coalition power model, attack-cost model, exact
  enumeration and LP-based cartel optimizer of
  `simulation_and_analysis/cartel_analysis.py` (`LegislatorCartel`).

Python floats are modelled as exact rationals (`ℚ`), Python ints as `ℤ`/`ℕ`.
A Python `ZeroDivisionError` is modelled by an `Option`-valued function
returning `none`.
-/

namespace Futarchy

namespace SybilSim

/-- Constant `ReputationWeightedMarket.INITIAL_REP` (sybil_simulation.py line 44). -/
def INITIAL_REP : ℚ := 100

/-- Constant `ReputationWeightedMarket.MIN_REP_FOR_GENESIS` (line 47). -/
def MIN_REP_FOR_GENESIS : ℚ := 1000

/-- Constant `ReputationWeightedMarket.GENESIS_PHASE_BLOCKS` (line 48). -/
def GENESIS_PHASE_BLOCKS : ℤ := 100

/-- Constant `ReputationWeightedMarket.EARLY_GROWTH_BLOCKS` (line 49). -/
def EARLY_GROWTH_BLOCKS : ℤ := 500

/-- Tier constants (sybil_simulation.py lines 52-68). -/
def TIER_5_REP : ℚ := 10000

def TIER_5_ACC : ℚ := 70/100

def TIER_5_LIMIT : ℚ := 5/100

def TIER_4_REP : ℚ := 5000

def TIER_4_ACC : ℚ := 65/100

def TIER_4_LIMIT : ℚ := 4/100

def TIER_3_REP : ℚ := 1000

def TIER_3_ACC : ℚ := 60/100

def TIER_3_LIMIT : ℚ := 3/100

def TIER_2_REP : ℚ := 500

def TIER_2_ACC : ℚ := 55/100

def TIER_2_LIMIT : ℚ := 2/100

def TIER_1_LIMIT : ℚ := 1/100

/-- The fields of the Python `User` dataclass used by the numeric engine
(`address` and `markets_participated` do not influence any computation). -/
structure User where
  capital : ℚ
  reputation : ℚ
  accuracy : ℚ

/-- The state of a `ReputationWeightedMarket`: constructor argument
`total_liquidity` and the two block counters set by the callers. -/
structure Market where
  total_liquidity : ℚ
  creation_block : ℤ
  current_block : ℤ

/-- Function `ReputationWeightedMarket.can_participate_in_genesis` (lines 78-85). -/
def can_participate_in_genesis (mkt : Market) (u : User) : Bool :=
  let blocks_since_creation := mkt.current_block - mkt.creation_block
  if blocks_since_creation < GENESIS_PHASE_BLOCKS then
    decide (u.reputation ≥ MIN_REP_FOR_GENESIS)
  else
    true

/-- Function `ReputationWeightedMarket.calculate_position_limit` (lines 87-128):
genesis phase, early-growth phase, and the standard 5-tier phase. -/
def calculate_position_limit (mkt : Market) (u : User) : ℚ :=
  let blocks_since_creation := mkt.current_block - mkt.creation_block
  if blocks_since_creation < GENESIS_PHASE_BLOCKS then
    if ¬ can_participate_in_genesis mkt u then 0
    else
      let rep_factor := min (u.reputation / MIN_REP_FOR_GENESIS) 10
      let min_liquidity : ℚ := 1000
      let max_genesis := min_liquidity * (20/100) * rep_factor / 10
      min max_genesis (mkt.total_liquidity * (20/100))
  else if blocks_since_creation < EARLY_GROWTH_BLOCKS then
    let block_progress := blocks_since_creation - GENESIS_PHASE_BLOCKS
    let phase_length := EARLY_GROWTH_BLOCKS - GENESIS_PHASE_BLOCKS
    let percentage_limit := 30/100 + ((block_progress : ℚ) / (phase_length : ℚ)) * (20/100)
    mkt.total_liquidity * percentage_limit
  else
    let rep := u.reputation
    let acc := u.accuracy
    let base_limit :=
      if rep ≥ TIER_5_REP ∧ acc ≥ TIER_5_ACC then TIER_5_LIMIT
      else if rep ≥ TIER_4_REP ∧ acc ≥ TIER_4_ACC then TIER_4_LIMIT
      else if rep ≥ TIER_3_REP ∧ acc ≥ TIER_3_ACC then TIER_3_LIMIT
      else if rep ≥ TIER_2_REP ∧ acc ≥ TIER_2_ACC then TIER_2_LIMIT
      else TIER_1_LIMIT
    mkt.total_liquidity * base_limit

/-- Function `simulate_reputation_decay_resistance` (sybil_simulation.py lines 286-317),
restricted to its `decayed_reputation` output.  The source parameterises the
inactivity duration in months (`months_inactive`), one month being 30 days. -/
def simulate_reputation_decay_resistance (initial_rep : ℚ) (months_inactive : ℕ) : ℚ :=
  if months_inactive * 30 ≤ 90 then
    initial_rep
  else
    let inactive_days : ℚ := ((months_inactive * 30 - 90 : ℕ) : ℚ)
    let decay_periods : ℚ := inactive_days / 30
    let total_decay_rate : ℚ := min ((1/100) * decay_periods) (1 - 25/100)
    max (initial_rep - initial_rep * total_decay_rate) (initial_rep * (25/100))

end SybilSim

namespace PredictionAccuracy

/-- Tier constants of prediction_accuracy.py (lines 81-97), identical to the
ones of sybil_simulation.py. -/
def TIER_5_REP : ℚ := 10000

def TIER_5_ACC : ℚ := 70/100

def TIER_5_LIMIT : ℚ := 5/100

def TIER_4_REP : ℚ := 5000

def TIER_4_ACC : ℚ := 65/100

def TIER_4_LIMIT : ℚ := 4/100

def TIER_3_REP : ℚ := 1000

def TIER_3_ACC : ℚ := 60/100

def TIER_3_LIMIT : ℚ := 3/100

def TIER_2_REP : ℚ := 500

def TIER_2_ACC : ℚ := 55/100

def TIER_2_LIMIT : ℚ := 2/100

def TIER_1_LIMIT : ℚ := 1/100

/-- Function `ReputationWeightedMarket.calculate_position_limit`
(prediction_accuracy.py lines 104-118): the Standard-phase tier lookup,
returning the position limit as a fraction of total liquidity. -/
def calculate_position_limit (reputation accuracy : ℚ) : ℚ :=
  if reputation ≥ TIER_5_REP ∧ accuracy ≥ TIER_5_ACC then TIER_5_LIMIT
  else if reputation ≥ TIER_4_REP ∧ accuracy ≥ TIER_4_ACC then TIER_4_LIMIT
  else if reputation ≥ TIER_3_REP ∧ accuracy ≥ TIER_3_ACC then TIER_3_LIMIT
  else if reputation ≥ TIER_2_REP ∧ accuracy ≥ TIER_2_ACC then TIER_2_LIMIT
  else TIER_1_LIMIT

end PredictionAccuracy

namespace CartelAnalysis

/-- Constant `LegislatorCartel.OVERRIDE_THRESHOLD` (cartel_analysis.py line 29). -/
def OVERRIDE_THRESHOLD : ℚ := 6666/10000

/-- Constant `LegislatorCartel.MIN_LEGISLATORS` (line 30). -/
def MIN_LEGISLATORS : ℕ := 7

/-- Constant `LegislatorCartel.TERM_LENGTH_WEEKS` (line 32). -/
def TERM_LENGTH_WEEKS : ℚ := 12

/-- Constant `LegislatorCartel.SLASH_PENALTY` (line 33). -/
def SLASH_PENALTY : ℚ := 10/100

/-- The constructor state of a `LegislatorCartel` (lines 21-26):
population size, per-legislator performance scores and reputation values,
and the market value. -/
structure Cartel where
  n : ℕ
  scores : List ℚ
  reputations : List ℚ
  market_value : ℚ

/-- Python expression `sum(xs[i] for i in members)`: the sum of the entries of `xs` selected by
a list of member indices (all call sites use indices below the list length,
where `getD` equals Python indexing). -/
def sumAt (xs : List ℚ) (members : List ℕ) : ℚ :=
  (members.map (fun i => xs.getD i 0)).sum

/-- The blended voting-power expression of
`LegislatorCartel.calculate_cartel_power` (lines 35-53):
`0.6 * cartel_score_sum / total_score_sum + 0.4 * cartel_rep_sum / total_rep_sum`.
This is the value Python computes whenever both denominators are non-zero. -/
def cartelPowerVal (c : Cartel) (members : List ℕ) : ℚ :=
  6/10 * sumAt c.scores members / c.scores.sum
    + 4/10 * sumAt c.reputations members / c.reputations.sum

/-- Method `LegislatorCartel.calculate_cartel_power` (lines 35-53), restricted to its
`voting_power` output.  When a total score or reputation sum is zero, Python
raises `ZeroDivisionError`, modelled by `none`. -/
def calculate_cartel_power (c : Cartel) (members : List ℕ) : Option ℚ :=
  if c.scores.sum = 0 ∨ c.reputations.sum = 0 then none
  else some (cartelPowerVal c members)

/-- The `can_override` flag of `calculate_cartel_power` (line 50):
`cartel_power >= OVERRIDE_THRESHOLD`. -/
def can_override (c : Cartel) (members : List ℕ) : Bool :=
  decide (cartelPowerVal c members ≥ OVERRIDE_THRESHOLD)

/-- Method `LegislatorCartel.calculate_attack_cost` (lines 55-80): per-member cost is
expected earnings plus reputation risk plus a coordination cost of
`0.1 · size`, and a coordination overhead of 5% per additional member is
applied to the summed base cost. -/
def calculate_attack_cost (c : Cartel) (members : List ℕ) : ℚ :=
  let costs := members.map (fun member =>
    let expected_earnings := c.market_value * (25/1000) * TERM_LENGTH_WEEKS
    let rep_value := c.reputations.getD member 0
    let rep_risk := rep_value * SLASH_PENALTY * (30/100)
    let coord_cost := (members.length : ℚ) * (1/10)
    expected_earnings + rep_risk + coord_cost)
  let base_cost := costs.sum
  let overhead := base_cost * ((members.length : ℚ) - 1) * (5/100)
  base_cost + overhead

/-- The per-participant objective coefficient of the LP of
`LegislatorCartel.find_minimum_cartel` (lines 90-94): expected term earnings
plus reputation-slash risk (no coordination term). -/
def lp_member_cost (c : Cartel) (i : ℕ) : ℚ :=
  c.market_value * (25/1000) * TERM_LENGTH_WEEKS
    + c.reputations.getD i 0 * SLASH_PENALTY * (30/100)

/-- The LP objective `Σ costs[i] * x[i]` (line 96) evaluated at the 0/1
assignment selecting `members`. -/
def lp_cost (c : Cartel) (members : List ℕ) : ℚ :=
  (members.map (lp_member_cost c)).sum

/-- The left-hand side of the LP override constraint (lines 102-105)
evaluated at the 0/1 assignment selecting `members`:
`Σ 0.6·scores[i]/total_score·x[i] + Σ 0.4·reputations[i]/total_rep·x[i]`. -/
def lp_constraint_lhs (c : Cartel) (members : List ℕ) : ℚ :=
  (members.map (fun i => 6/10 * c.scores.getD i 0 / c.scores.sum)).sum
    + (members.map (fun i => 4/10 * c.reputations.getD i 0 / c.reputations.sum)).sum

/-- A 0/1 assignment (given as the list of selected indices) is feasible for
the LP of `find_minimum_cartel` when the override constraint holds. -/
def lpFeasible (c : Cartel) (members : List ℕ) : Bool :=
  decide (lp_constraint_lhs c members ≥ OVERRIDE_THRESHOLD)

/-- Fold selecting the argument minimising `f`, keeping the earlier argument
on ties. -/
def pickMinBy {α : Type} (f : α → ℚ) (x : α) : List α → α
  | [] => x
  | y :: ys => pickMinBy f (if f y < f x then y else x) ys

/-- First argument of minimal `f`-value in a list, `none` for the empty
list. -/
def argminBy {α : Type} (f : α → ℚ) : List α → Option α
  | [] => none
  | x :: xs => some (pickMinBy f x xs)

/-- Method `LegislatorCartel.find_minimum_cartel` (lines 82-117).  The source builds
a 0/1 program (binary variable per legislator, objective `lp_cost`,
constraint `lp_constraint_lhs ≥ OVERRIDE_THRESHOLD`) and hands it to an exact
solver (CBC); the assignment returned by the solver is modelled as a feasible
subset of minimal objective value, and the empty assignment when no subset is
feasible (with no variables, as for an empty population, the selected member
list is `[]` exactly as in the source).  Line 116 then recomputes
`calculate_cartel_power` on the selected members, whose `ZeroDivisionError`
on a zero total score or reputation sum is the `none` case.  The returned
triple is (cartel_members, total_cost, voting_power). -/
def find_minimum_cartel (c : Cartel) : Option (List ℕ × ℚ × ℚ) :=
  let feasible := (List.range c.n).sublists.filter (fun S => lpFeasible c S)
  let members := (argminBy (fun S => lp_cost c S) feasible).getD []
  match calculate_cartel_power c members with
  | none => none
  | some p => some (members, lp_cost c members, p)

/-- All `k`-element combinations of a list, in the order produced by the
Python `itertools.combinations` generator. -/
def combos : ℕ → List ℕ → List (List ℕ)
  | 0, _ => [[]]
  | _ + 1, [] => []
  | k + 1, x :: xs => ((combos k xs).map (fun m => x :: m)) ++ combos (k + 1) xs

/-- The coalition sizes enumerated by `brute_force_cartels` (line 123):
`range(MIN_LEGISLATORS, n + 1)`. -/
def bf_sizes (c : Cartel) : List ℕ :=
  List.range' MIN_LEGISLATORS (c.n + 1 - MIN_LEGISLATORS)

/-- The feasible (override-capable) coalitions and their attack costs
accumulated by `brute_force_cartels` (lines 123-135), in enumeration
order. -/
def bf_results (c : Cartel) : List (List ℕ × ℚ) :=
  (((bf_sizes c).flatMap (fun size => combos size (List.range c.n))).filter
    (fun m => can_override c m)).map (fun m => (m, calculate_attack_cost c m))

/-- Method `LegislatorCartel.brute_force_cartels` (lines 119-137): enumerate all
coalitions of each size from `MIN_LEGISLATORS` to `n`, keep the
override-capable ones with their costs, and sort by cost (the Python
`sorted` builtin is a stable merge sort).  When a total score or reputation sum is zero and at
least one coalition is enumerated (`MIN_LEGISLATORS ≤ n`), the first
`calculate_cartel_power` call raises `ZeroDivisionError`, modelled by
`none`. -/
def brute_force_cartels (c : Cartel) : Option (List (List ℕ × ℚ)) :=
  if (c.scores.sum = 0 ∨ c.reputations.sum = 0) ∧ MIN_LEGISLATORS ≤ c.n then none
  else some ((bf_results c).mergeSort (fun a b => a.2 ≤ b.2))

/-- Modelled from the spec: the §4.5 cost model exactly as the spec words it —
per member cost is `expectedEarnings + reputationRisk` only (no per-member
coordination term), and the total is that sum plus
`(Σ member costs) · (coalitionSize − 1) · overheadRatePerMember`. -/
def spec_attack_cost (c : Cartel) (members : List ℕ) : ℚ :=
  let base := (members.map (fun member =>
    c.market_value * (25/1000) * TERM_LENGTH_WEEKS
      + c.reputations.getD member 0 * SLASH_PENALTY * (30/100))).sum
  base + base * ((members.length : ℚ) - 1) * (5/100)

/-- The concrete scenario of spec §8: 7 legislators, uniform scores and
reputations of 100 and a market value of 1000 ETH. -/
def uniformCartel : Cartel :=
  ⟨7, [100, 100, 100, 100, 100, 100, 100], [100, 100, 100, 100, 100, 100, 100], 1000⟩

/-- An empty population: no legislators, empty score and reputation lists. -/
def emptyCartel : Cartel := ⟨0, [], [], 0⟩

end CartelAnalysis

/-! ### Theorems about the position-limit state machine -/

namespace SybilSim

/-- C1: for every participant with nonnegative reputation and accuracy in
[0, 1], every market with positive total liquidity and current block at least
the creation block, the position limit computed by
`calculate_position_limit` is at most the total liquidity of the market, in all
three phases (Genesis, EarlyGrowth, Standard). -/
theorem position_limit_le_total_liquidity (mkt : Market) (u : User)
    (hrep : 0 ≤ u.reputation) (hacc0 : 0 ≤ u.accuracy) (hacc1 : u.accuracy ≤ 1)
    (hliq : 0 < mkt.total_liquidity)
    (hblk : mkt.creation_block ≤ mkt.current_block) :
    calculate_position_limit mkt u ≤ mkt.total_liquidity := by
  simp only [calculate_position_limit, TIER_5_REP, TIER_5_ACC, TIER_5_LIMIT,
    TIER_4_REP, TIER_4_ACC, TIER_4_LIMIT, TIER_3_REP, TIER_3_ACC, TIER_3_LIMIT,
    TIER_2_REP, TIER_2_ACC, TIER_2_LIMIT, TIER_1_LIMIT,
    GENESIS_PHASE_BLOCKS, EARLY_GROWTH_BLOCKS, MIN_REP_FOR_GENESIS]
  split_ifs with h1 h2 h3 h4 h5 h6 h7
  · exact le_trans (min_le_right _ _) (by linarith)
  · linarith
  · have hb1 : (100 : ℤ) ≤ mkt.current_block - mkt.creation_block := by omega
    have hc1 : (100 : ℚ) ≤ (mkt.current_block : ℚ) - (mkt.creation_block : ℚ) := by
      exact_mod_cast hb1
    have hc2 : (mkt.current_block : ℚ) - (mkt.creation_block : ℚ) < 500 := by
      exact_mod_cast h3
    have hfr : 3/10 + ((mkt.current_block : ℚ) - (mkt.creation_block : ℚ) - 100)
        / 400 * (1/5) ≤ 1 := by linarith
    have h := mul_le_mul_of_nonneg_left hfr hliq.le
    rw [mul_one] at h
    push_cast
    norm_num
    convert h using 2
  · linarith
  · linarith
  · linarith
  · linarith
  · linarith

/-- Witness for C1 at a concrete Standard-phase input. -/
theorem position_limit_le_total_liquidity_witness :
    calculate_position_limit ⟨1000, 0, 600⟩ ⟨5, 1500, 3/4⟩ ≤ (1000 : ℚ) :=
  position_limit_le_total_liquidity ⟨1000, 0, 600⟩ ⟨5, 1500, 3/4⟩
    (by norm_num) (by norm_num) (by norm_num) (by norm_num) (by norm_num)

/-- C2: in the Genesis phase (elapsed blocks < 100), the position limit is 0
for reputation below `MIN_REP_FOR_GENESIS` (1000), and otherwise equals
`min((1000 · 0.20 · min(reputation/1000, 10)) / 10, totalLiquidity · 0.20)`. -/
theorem genesis_position_limit_formula (mkt : Market) (u : User)
    (hph : mkt.current_block - mkt.creation_block < GENESIS_PHASE_BLOCKS) :
    (u.reputation < MIN_REP_FOR_GENESIS → calculate_position_limit mkt u = 0) ∧
    (MIN_REP_FOR_GENESIS ≤ u.reputation →
      calculate_position_limit mkt u =
        min (1000 * (20/100) * min (u.reputation / 1000) 10 / 10)
          (mkt.total_liquidity * (20/100))) := by
  constructor
  · intro h
    have h' : ¬ (1000 : ℚ) ≤ u.reputation := not_le.mpr (by simpa [MIN_REP_FOR_GENESIS] using h)
    simp [calculate_position_limit, can_participate_in_genesis, hph,
      MIN_REP_FOR_GENESIS, h']
  · intro h
    have h' : (1000 : ℚ) ≤ u.reputation := by simpa [MIN_REP_FOR_GENESIS] using h
    simp [calculate_position_limit, can_participate_in_genesis, hph,
      MIN_REP_FOR_GENESIS, h']

/-- Witness for C2: at block 50 a participant with reputation 999 is hard
blocked. -/
theorem genesis_position_limit_formula_witness :
    calculate_position_limit ⟨1000, 0, 50⟩ ⟨5, 999, 1/2⟩ = 0 :=
  (genesis_position_limit_formula ⟨1000, 0, 50⟩ ⟨5, 999, 1/2⟩
    (by norm_num [GENESIS_PHASE_BLOCKS])).1 (by norm_num [MIN_REP_FOR_GENESIS])

/-- C10: in the Genesis phase the limit of a genesis-eligible participant equals
`min(20 · repFactor, 0.20 · totalLiquidity)` and never exceeds 200 currency
units, for every reputation and every total liquidity. -/
theorem genesis_position_limit_cap (mkt : Market) (u : User)
    (hph : mkt.current_block - mkt.creation_block < GENESIS_PHASE_BLOCKS)
    (hrep : MIN_REP_FOR_GENESIS ≤ u.reputation) :
    calculate_position_limit mkt u =
      min (20 * min (u.reputation / 1000) 10) (mkt.total_liquidity * (20/100)) ∧
    calculate_position_limit mkt u ≤ 200 := by
  have heq := (genesis_position_limit_formula mkt u hph).2 hrep
  have h20 : (1000 : ℚ) * (20/100) * min (u.reputation / 1000) 10 / 10
      = 20 * min (u.reputation / 1000) 10 := by ring
  constructor
  · rw [heq, h20]
  · rw [heq, h20]
    refine le_trans (min_le_left _ _) ?_
    have hm : min (u.reputation / 1000) 10 ≤ 10 := min_le_right _ _
    linarith

/-- Witness for C10 at a concrete Genesis-phase input with huge reputation and
huge liquidity. -/
theorem genesis_position_limit_cap_witness :
    calculate_position_limit ⟨1000000, 0, 10⟩ ⟨5, 50000, 1/2⟩ ≤ 200 :=
  (genesis_position_limit_cap ⟨1000000, 0, 10⟩ ⟨5, 50000, 1/2⟩
    (by norm_num [GENESIS_PHASE_BLOCKS]) (by norm_num [MIN_REP_FOR_GENESIS])).2

/-- C8: for every nonnegative initial reputation, the decay function is the
identity at zero inactivity, non-increasing in the inactivity duration
(months of inactivity, the unit of the parameter in the source), and bounded below
by 25% of the initial value for every duration. -/
theorem decay_basic_props (rep : ℚ) (hrep : 0 ≤ rep) :
    simulate_reputation_decay_resistance rep 0 = rep ∧
    (∀ m1 m2 : ℕ, m1 ≤ m2 →
      simulate_reputation_decay_resistance rep m2 ≤
        simulate_reputation_decay_resistance rep m1) ∧
    ∀ m : ℕ, rep * (25/100) ≤ simulate_reputation_decay_resistance rep m := by
  refine ⟨?_, ?_, ?_⟩
  · simp [simulate_reputation_decay_resistance]
  · intro m1 m2 h
    simp only [simulate_reputation_decay_resistance]
    split_ifs with ha hb hb
    · exact le_rfl
    · omega
    · have hr2 : (0:ℚ) ≤ min ((1/100) * (((m2 * 30 - 90 : ℕ) : ℚ) / 30)) (1 - 25/100) := by
        refine le_min ?_ (by norm_num)
        positivity
      refine max_le ?_ (by linarith)
      nlinarith [mul_nonneg hrep hr2]
    · have hc : ((m1 * 30 - 90 : ℕ) : ℚ) ≤ ((m2 * 30 - 90 : ℕ) : ℚ) := by
        exact Nat.cast_le.mpr (by omega)
      have hrate : min ((1/100) * (((m1 * 30 - 90 : ℕ) : ℚ) / 30)) (1 - 25/100)
          ≤ min ((1/100) * (((m2 * 30 - 90 : ℕ) : ℚ) / 30)) (1 - 25/100) := by
        refine min_le_min ?_ le_rfl
        linarith
      refine max_le_max ?_ le_rfl
      have := mul_le_mul_of_nonneg_left hrate hrep
      linarith
  · intro m
    simp only [simulate_reputation_decay_resistance]
    split_ifs with ha
    · linarith
    · exact le_max_right _ _

/-- Witness for C8 at initial reputation 10000. -/
theorem decay_basic_props_witness :
    simulate_reputation_decay_resistance 10000 0 = 10000 ∧
    (∀ m1 m2 : ℕ, m1 ≤ m2 →
      simulate_reputation_decay_resistance 10000 m2 ≤
        simulate_reputation_decay_resistance 10000 m1) ∧
    ∀ m : ℕ, (10000 : ℚ) * (25/100) ≤ simulate_reputation_decay_resistance 10000 m :=
  decay_basic_props 10000 (by norm_num)

/-- C9 counterexample: at 12 months of inactivity and initial reputation
10000 the code returns exactly 9100, which differs from the value asserted by
the claim (365 inactive days, decay periods (365−90)/30 ≈ 9.17, a rate of
0.0917 and a remainder of about 9083): the source converts 12 months to 360
days, giving 9 decay periods, a rate of 0.09 and a remainder of 9100. -/
theorem decay_twelve_months_counterexample :
    simulate_reputation_decay_resistance 10000 12 = 9100 ∧
    simulate_reputation_decay_resistance 10000 12 ≠
      10000 * (1 - min ((1/100) * (((365 : ℚ) - 90) / 30)) (1 - 25/100)) := by
  have h : simulate_reputation_decay_resistance 10000 12 = 9100 := by
    norm_num [simulate_reputation_decay_resistance, min_def, max_def]
  refine ⟨h, ?_⟩
  rw [h]
  norm_num [min_def]

/-- C9 amended: for 12 months of inactivity (360 days) and initial reputation
10000, the inactive days beyond the 90-day threshold are 270, the decay
periods are 270/30 = 9, the total decay rate is min(0.09, 0.75) = 0.09, and
the remaining reputation is 9100, above the 25% floor. -/
theorem decay_twelve_months_amended :
    simulate_reputation_decay_resistance 10000 12 = 9100 ∧
    min ((1/100) * ((((12 * 30 : ℕ) - 90 : ℕ) : ℚ) / 30)) (1 - 25/100) = 9/100 ∧
    (10000 : ℚ) * (25/100) ≤ simulate_reputation_decay_resistance 10000 12 := by
  refine ⟨?_, ?_, ?_⟩
  · norm_num [simulate_reputation_decay_resistance, min_def, max_def]
  · norm_num [min_def]
  · norm_num [simulate_reputation_decay_resistance, min_def, max_def]

end SybilSim

namespace PredictionAccuracy

/-- The tier lookup never returns less than the catch-all 1% tier. -/
theorem one_pct_le_limit (rep acc : ℚ) :
    TIER_1_LIMIT ≤ calculate_position_limit rep acc := by
  simp only [calculate_position_limit]
  split_ifs <;>
    norm_num [TIER_5_LIMIT, TIER_4_LIMIT, TIER_3_LIMIT, TIER_2_LIMIT, TIER_1_LIMIT]

/-- Meeting the tier-2 floors guarantees at least the 2% fraction. -/
theorem two_pct_le_limit (rep acc : ℚ) (h1 : TIER_2_REP ≤ rep) (h2 : TIER_2_ACC ≤ acc) :
    TIER_2_LIMIT ≤ calculate_position_limit rep acc := by
  simp only [calculate_position_limit]
  split_ifs with a b c d
  · norm_num [TIER_5_LIMIT, TIER_2_LIMIT]
  · norm_num [TIER_4_LIMIT, TIER_2_LIMIT]
  · norm_num [TIER_3_LIMIT, TIER_2_LIMIT]
  · exact le_rfl
  · exact absurd ⟨h1, h2⟩ d

/-- Meeting the tier-3 floors guarantees at least the 3% fraction. -/
theorem three_pct_le_limit (rep acc : ℚ) (h1 : TIER_3_REP ≤ rep) (h2 : TIER_3_ACC ≤ acc) :
    TIER_3_LIMIT ≤ calculate_position_limit rep acc := by
  simp only [calculate_position_limit]
  split_ifs with a b c d
  · norm_num [TIER_5_LIMIT, TIER_3_LIMIT]
  · norm_num [TIER_4_LIMIT, TIER_3_LIMIT]
  · exact le_rfl
  · exact absurd ⟨h1, h2⟩ c
  · exact absurd ⟨h1, h2⟩ c

/-- Meeting the tier-4 floors guarantees at least the 4% fraction. -/
theorem four_pct_le_limit (rep acc : ℚ) (h1 : TIER_4_REP ≤ rep) (h2 : TIER_4_ACC ≤ acc) :
    TIER_4_LIMIT ≤ calculate_position_limit rep acc := by
  simp only [calculate_position_limit]
  split_ifs with a b c d
  · norm_num [TIER_5_LIMIT, TIER_4_LIMIT]
  · exact le_rfl
  · exact absurd ⟨h1, h2⟩ b
  · exact absurd ⟨h1, h2⟩ b
  · exact absurd ⟨h1, h2⟩ b

/-- Meeting the tier-5 floors guarantees the full 5% fraction. -/
theorem five_pct_le_limit (rep acc : ℚ) (h1 : TIER_5_REP ≤ rep) (h2 : TIER_5_ACC ≤ acc) :
    TIER_5_LIMIT ≤ calculate_position_limit rep acc := by
  simp only [calculate_position_limit]
  split_ifs with a b c d
  · exact le_rfl
  · exact absurd ⟨h1, h2⟩ a
  · exact absurd ⟨h1, h2⟩ a
  · exact absurd ⟨h1, h2⟩ a
  · exact absurd ⟨h1, h2⟩ a

/-- C7: the Standard-phase tier lookup is monotone — raising reputation
and/or accuracy never decreases the assigned limit fraction. -/
theorem tier_lookup_monotone (rep1 acc1 rep2 acc2 : ℚ)
    (hrep : rep1 ≤ rep2) (hacc : acc1 ≤ acc2) :
    calculate_position_limit rep1 acc1 ≤ calculate_position_limit rep2 acc2 := by
  by_cases h5 : rep1 ≥ TIER_5_REP ∧ acc1 ≥ TIER_5_ACC
  · have hv : calculate_position_limit rep1 acc1 = TIER_5_LIMIT := by
      simp [calculate_position_limit, h5]
    rw [hv]
    exact five_pct_le_limit _ _ (le_trans h5.1 hrep) (le_trans h5.2 hacc)
  by_cases h4 : rep1 ≥ TIER_4_REP ∧ acc1 ≥ TIER_4_ACC
  · have hv : calculate_position_limit rep1 acc1 = TIER_4_LIMIT := by
      simp [calculate_position_limit, h4, h5]
    rw [hv]
    exact four_pct_le_limit _ _ (le_trans h4.1 hrep) (le_trans h4.2 hacc)
  by_cases h3 : rep1 ≥ TIER_3_REP ∧ acc1 ≥ TIER_3_ACC
  · have hv : calculate_position_limit rep1 acc1 = TIER_3_LIMIT := by
      simp [calculate_position_limit, h3, h4, h5]
    rw [hv]
    exact three_pct_le_limit _ _ (le_trans h3.1 hrep) (le_trans h3.2 hacc)
  by_cases h2 : rep1 ≥ TIER_2_REP ∧ acc1 ≥ TIER_2_ACC
  · have hv : calculate_position_limit rep1 acc1 = TIER_2_LIMIT := by
      simp [calculate_position_limit, h2, h3, h4, h5]
    rw [hv]
    exact two_pct_le_limit _ _ (le_trans h2.1 hrep) (le_trans h2.2 hacc)
  · have hv : calculate_position_limit rep1 acc1 = TIER_1_LIMIT := by
      simp [calculate_position_limit, h2, h3, h4, h5]
    rw [hv]
    exact one_pct_le_limit _ _

/-- Witness for C7: a raise from tier 1 to tier 3 floors. -/
theorem tier_lookup_monotone_witness :
    calculate_position_limit 400 (1/2) ≤ calculate_position_limit 1500 (3/4) :=
  tier_lookup_monotone 400 (1/2) 1500 (3/4) (by norm_num) (by norm_num)

end PredictionAccuracy

namespace CartelAnalysis

/-- The result of `pickMinBy` is the start value or a list element. -/
theorem pickMinBy_mem {α : Type} (f : α → ℚ) (l : List α) :
    ∀ x : α, pickMinBy f x l = x ∨ pickMinBy f x l ∈ l := by
  induction l with
  | nil => intro x; exact Or.inl rfl
  | cons y ys ih =>
    intro x
    simp only [pickMinBy]
    rcases ih (if f y < f x then y else x) with h | h
    · rw [h]
      split_ifs with hc
      · exact Or.inr (List.mem_cons_self y ys)
      · exact Or.inl rfl
    · exact Or.inr (List.mem_cons_of_mem y h)

/-- The value of `pickMinBy` never exceeds the start value. -/
theorem pickMinBy_le_init {α : Type} (f : α → ℚ) (l : List α) :
    ∀ x : α, f (pickMinBy f x l) ≤ f x := by
  induction l with
  | nil => intro x; exact le_rfl
  | cons y ys ih =>
    intro x
    simp only [pickMinBy]
    refine le_trans (ih _) ?_
    split_ifs with hc
    · exact le_of_lt hc
    · exact le_rfl

/-- The value of `pickMinBy` never exceeds any list element. -/
theorem pickMinBy_le_mem {α : Type} (f : α → ℚ) (l : List α) :
    ∀ x : α, ∀ y ∈ l, f (pickMinBy f x l) ≤ f y := by
  induction l with
  | nil => intro x y hy; exact absurd hy (List.not_mem_nil y)
  | cons z zs ih =>
    intro x y hy
    simp only [pickMinBy]
    rcases List.mem_cons.mp hy with rfl | hy
    · refine le_trans (pickMinBy_le_init f zs _) ?_
      split_ifs with hc
      · exact le_rfl
      · exact le_of_not_lt hc
    · exact ih _ y hy

/-- On a non-empty list, `argminBy` returns a member of minimal value. -/
theorem argminBy_spec {α : Type} (f : α → ℚ) (l : List α) (hl : l ≠ []) :
    ∃ a, argminBy f l = some a ∧ a ∈ l ∧ ∀ y ∈ l, f a ≤ f y := by
  cases l with
  | nil => exact absurd rfl hl
  | cons x xs =>
    refine ⟨pickMinBy f x xs, rfl, ?_, ?_⟩
    · rcases pickMinBy_mem f xs x with h | h
      · rw [h]; exact List.mem_cons_self x xs
      · exact List.mem_cons_of_mem x h
    · intro y hy
      rcases List.mem_cons.mp hy with rfl | hy
      · exact pickMinBy_le_init f xs y
      · exact pickMinBy_le_mem f xs x y hy

/-- Every combination drawn from `l` is a sublist of `l`. -/
theorem sublist_of_mem_combos :
    ∀ (k : ℕ) (l m : List ℕ), m ∈ combos k l → List.Sublist m l := by
  intro k l
  induction l generalizing k with
  | nil =>
    intro m hm
    cases k with
    | zero => simp only [combos, List.mem_singleton] at hm; rw [hm]
    | succ k => simp [combos] at hm
  | cons x xs ih =>
    intro m hm
    cases k with
    | zero =>
      simp only [combos, List.mem_singleton] at hm
      rw [hm]; exact List.nil_sublist _
    | succ k =>
      simp only [combos, List.mem_append, List.mem_map] at hm
      rcases hm with ⟨m', hm', rfl⟩ | hm
      · exact List.Sublist.cons₂ x (ih k m' hm')
      · exact List.Sublist.cons x (ih (k + 1) m hm)

/-- Every combination of size `k` has length `k`. -/
theorem length_of_mem_combos :
    ∀ (k : ℕ) (l m : List ℕ), m ∈ combos k l → m.length = k := by
  intro k l
  induction l generalizing k with
  | nil =>
    intro m hm
    cases k with
    | zero => simp only [combos, List.mem_singleton] at hm; simp [hm]
    | succ k => simp [combos] at hm
  | cons x xs ih =>
    intro m hm
    cases k with
    | zero => simp only [combos, List.mem_singleton] at hm; simp [hm]
    | succ k =>
      simp only [combos, List.mem_append, List.mem_map] at hm
      rcases hm with ⟨m', hm', rfl⟩ | hm
      · simp [ih k m' hm']
      · exact ih (k + 1) m hm

/-- The LP override constraint evaluated on a subset equals the blended
power of `calculate_cartel_power` on that subset (sum of per-member shares
versus share of the member sums). -/
theorem lp_constraint_eq_power (c : Cartel) (members : List ℕ) :
    lp_constraint_lhs c members = cartelPowerVal c members := by
  induction members with
  | nil => simp [lp_constraint_lhs, cartelPowerVal, sumAt]
  | cons i rest ih =>
    simp only [lp_constraint_lhs, cartelPowerVal, sumAt, List.map_cons,
      List.sum_cons] at ih ⊢
    rw [mul_add, add_div, mul_add, add_div]
    linarith [ih]

/-- The LP feasibility check agrees with the brute-force `can_override`
check. -/
theorem lpFeasible_eq_can_override (c : Cartel) (members : List ℕ) :
    lpFeasible c members = can_override c members := by
  simp only [lpFeasible, can_override, lp_constraint_eq_power]

/-- A `getD`-indexed entry of a list of nonnegative values is nonnegative. -/
theorem getD_nonneg_of_forall :
    ∀ (l : List ℚ), (∀ r ∈ l, 0 ≤ r) → ∀ i : ℕ, 0 ≤ l.getD i 0 := by
  intro l
  induction l with
  | nil => intro h i; simp [List.getD]
  | cons x xs ih =>
    intro h i
    cases i with
    | zero => simpa using h x (List.mem_cons_self x xs)
    | succ j => simpa using ih (fun r hr => h r (List.mem_cons_of_mem x hr)) j

/-- With nonnegative market value and reputations, the LP objective is
nonnegative on every subset. -/
theorem lp_cost_nonneg (c : Cartel) (hmv : 0 ≤ c.market_value)
    (hrep : ∀ r ∈ c.reputations, 0 ≤ r) (members : List ℕ) :
    0 ≤ lp_cost c members := by
  refine List.sum_nonneg ?_
  intro q hq
  rcases List.mem_map.mp hq with ⟨i, _, rfl⟩
  have h1 : 0 ≤ c.reputations.getD i 0 := getD_nonneg_of_forall c.reputations hrep i
  simp only [lp_member_cost, TERM_LENGTH_WEEKS, SLASH_PENALTY]
  have h2 : (0:ℚ) ≤ c.market_value * (25/1000) * 12 := by positivity
  have h3 : (0:ℚ) ≤ c.reputations.getD i 0 * (10/100) * (30/100) := by positivity
  linarith

/-- Summing a constant-shifted function over a list. -/
theorem sum_map_add_const (f : ℕ → ℚ) (k : ℚ) (l : List ℕ) :
    (l.map (fun i => f i + k)).sum = (l.map f).sum + l.length * k := by
  induction l with
  | nil => simp
  | cons x xs ih =>
    simp only [List.map_cons, List.sum_cons, List.length_cons, ih]
    push_cast
    ring

/-- Closed form of `calculate_attack_cost`: the LP objective plus the
per-member coordination cost (`0.1` per member, paid by each member),
inflated by the 5%-per-additional-member overhead factor. -/
theorem attack_cost_decomposition (c : Cartel) (members : List ℕ) :
    calculate_attack_cost c members =
      (lp_cost c members + (members.length : ℚ) * ((members.length : ℚ) * (1/10)))
        * (1 + ((members.length : ℚ) - 1) * (5/100)) := by
  have h := sum_map_add_const (lp_member_cost c) ((members.length : ℚ) * (1/10)) members
  simp only [lp_member_cost] at h
  simp only [calculate_attack_cost, lp_cost]
  rw [h]
  ring

/-- With nonnegative inputs and a non-empty coalition, the LP objective is a
lower bound on the brute-force attack cost. -/
theorem lp_cost_le_attack_cost (c : Cartel) (hmv : 0 ≤ c.market_value)
    (hrep : ∀ r ∈ c.reputations, 0 ≤ r) (members : List ℕ)
    (hlen : 1 ≤ members.length) :
    lp_cost c members ≤ calculate_attack_cost c members := by
  rw [attack_cost_decomposition]
  have h0 : (0:ℚ) ≤ lp_cost c members := lp_cost_nonneg c hmv hrep members
  have hl : (1:ℚ) ≤ (members.length : ℚ) := by exact_mod_cast hlen
  have hL1 : (0:ℚ) ≤ (members.length : ℚ) - 1 := by linarith
  have hL0 : (0:ℚ) ≤ (members.length : ℚ) := by linarith
  nlinarith [mul_nonneg h0 hL1, mul_nonneg hL0 hL0,
    mul_nonneg (mul_nonneg hL0 hL0) hL1]

/-- Entries of the uniform score/reputation list. -/
theorem getD_hundred (i : ℕ) (hi : i < 7) :
    ([100, 100, 100, 100, 100, 100, 100] : List ℚ).getD i 0 = 100 := by
  interval_cases i <;> rfl

/-- Selected sums over the uniform population count 100 per member. -/
theorem sumAt_hundred (S : List ℕ) (hS : ∀ i ∈ S, i < 7) :
    sumAt [100, 100, 100, 100, 100, 100, 100] S = 100 * S.length := by
  induction S with
  | nil => simp [sumAt]
  | cons i rest ih =>
    have h1 : i < 7 := hS i (List.mem_cons_self i rest)
    have h2 := ih (fun j hj => hS j (List.mem_cons_of_mem i hj))
    simp only [sumAt, List.map_cons, List.sum_cons, List.length_cons] at h2 ⊢
    rw [getD_hundred i h1, h2]
    push_cast
    ring

/-- On the uniform population, the blended power of a coalition is its size
over 7. -/
theorem uniform_power (S : List ℕ) (hS : ∀ i ∈ S, i < 7) :
    cartelPowerVal uniformCartel S = (S.length : ℚ) / 7 := by
  simp only [cartelPowerVal, uniformCartel]
  rw [sumAt_hundred S hS]
  norm_num [List.sum_cons]
  ring

/-- On the uniform population, LP feasibility is exactly having at least 5
members (5/7 ≥ 0.6666 while 4/7 < 0.6666). -/
theorem uniform_feasible_iff (S : List ℕ) (hS : ∀ i ∈ S, i < 7) :
    (lpFeasible uniformCartel S = true) ↔ 5 ≤ S.length := by
  rw [lpFeasible_eq_can_override, can_override, decide_eq_true_eq,
    uniform_power S hS, OVERRIDE_THRESHOLD, ge_iff_le]
  constructor
  · intro h
    by_contra hlt
    push_neg at hlt
    have hq : (S.length : ℚ) ≤ 4 := by exact_mod_cast Nat.lt_succ_iff.mp hlt
    linarith
  · intro h
    have hq : (5:ℚ) ≤ (S.length : ℚ) := by exact_mod_cast h
    linarith

/-- The uniform per-member LP cost is 303 (earnings 300 plus slash risk 3). -/
theorem lp_cost_uniform (S : List ℕ) (hS : ∀ i ∈ S, i < 7) :
    lp_cost uniformCartel S = 303 * S.length := by
  induction S with
  | nil => simp [lp_cost]
  | cons i rest ih =>
    have h1 : i < 7 := hS i (List.mem_cons_self i rest)
    have h2 := ih (fun j hj => hS j (List.mem_cons_of_mem i hj))
    simp only [lp_cost, List.map_cons, List.sum_cons, List.length_cons] at h2 ⊢
    have hm : lp_member_cost uniformCartel i = 303 := by
      simp only [lp_member_cost, uniformCartel, TERM_LENGTH_WEEKS, SLASH_PENALTY]
      rw [getD_hundred i h1]
      norm_num
    rw [hm, h2]
    push_cast
    ring

/-- The full 7-member coalition can override on the uniform population. -/
theorem can_override_uniform_full :
    can_override uniformCartel [0, 1, 2, 3, 4, 5, 6] = true := by
  rw [can_override, decide_eq_true_eq, uniform_power _ (by decide)]
  norm_num [OVERRIDE_THRESHOLD]

/-- The brute-force attack cost of the full 7-member uniform coalition. -/
theorem attack_cost_uniform_full :
    calculate_attack_cost uniformCartel [0, 1, 2, 3, 4, 5, 6] = 276367/100 := by
  rw [attack_cost_decomposition, lp_cost_uniform _ (by decide)]
  norm_num

/-- Exact evaluation of `brute_force_cartels` on the uniform population: only
size 7 is enumerated (`range(7, 8)`), and the single candidate is feasible. -/
theorem bf_uniform_eval :
    brute_force_cartels uniformCartel = some [([0, 1, 2, 3, 4, 5, 6], 276367/100)] := by
  have hcond : ¬ ((uniformCartel.scores.sum = 0 ∨ uniformCartel.reputations.sum = 0) ∧
      MIN_LEGISLATORS ≤ uniformCartel.n) := by
    rintro ⟨h, -⟩
    rcases h with h | h <;> norm_num [uniformCartel, List.sum_cons] at h
  rw [brute_force_cartels, if_neg hcond]
  have hcand : (bf_sizes uniformCartel).flatMap
      (fun size => combos size (List.range uniformCartel.n)) = [[0, 1, 2, 3, 4, 5, 6]] := rfl
  rw [bf_results, hcand]
  rw [List.filter_cons_of_pos (by exact can_override_uniform_full), List.filter_nil]
  rw [List.map_cons, List.map_nil, attack_cost_uniform_full]
  simp [List.mergeSort]

/-- C5 counterexample: on the uniform 7-member coalition the coded attack
cost (2763.67: each member also pays a coordination cost of 0.1 per member,
i.e. 0.7) differs from the cost model as the claim states it (2757.3: member
cost only earnings forgone plus slash risk). -/
theorem attack_cost_coord_counterexample :
    calculate_attack_cost uniformCartel [0, 1, 2, 3, 4, 5, 6] ≠
      spec_attack_cost uniformCartel [0, 1, 2, 3, 4, 5, 6] := by
  rw [attack_cost_uniform_full]
  have hspec : spec_attack_cost uniformCartel [0, 1, 2, 3, 4, 5, 6] = 27573/10 := by
    simp only [spec_attack_cost, uniformCartel, TERM_LENGTH_WEEKS, SLASH_PENALTY,
      List.map_cons, List.map_nil, List.sum_cons, List.sum_nil, List.length_cons,
      List.length_nil, List.getD]
    norm_num
  rw [hspec]
  norm_num

/-- C5 amended: for every coalition, `calculate_attack_cost` equals the sum
over members of (expected earnings + reputation-slash risk + size·0.1
coordination cost), multiplied by the overhead factor 1 + (size−1)·0.05;
the base cost of each member thus depends on the coalition size through the
coordination term, not only through the single overhead term. -/
theorem attack_cost_formula (c : Cartel) (members : List ℕ) :
    calculate_attack_cost c members =
      ((members.map (fun i => c.market_value * (25/1000) * 12
          + c.reputations.getD i 0 * (10/100) * (30/100))).sum
        + (members.length : ℚ) * ((members.length : ℚ) * (1/10)))
        * (1 + ((members.length : ℚ) - 1) * (5/100)) := by
  rw [attack_cost_decomposition]
  have h : lp_member_cost c = fun i => c.market_value * (25/1000) * 12
      + c.reputations.getD i 0 * (10/100) * (30/100) := by
    funext i
    simp [lp_member_cost, TERM_LENGTH_WEEKS, SLASH_PENALTY]
  rw [lp_cost, h]

/-- C6: on an empty population, `calculate_cartel_power` divides by the zero
total sums (`ZeroDivisionError`, modelled `none`), and consequently
`find_minimum_cartel` raises instead of returning a defined infeasible
result. -/
theorem empty_population_zero_division :
    calculate_cartel_power emptyCartel [] = none ∧
    find_minimum_cartel emptyCartel = none := by
  have hp : calculate_cartel_power emptyCartel [] = none := by
    simp [calculate_cartel_power, emptyCartel]
  refine ⟨hp, ?_⟩
  have hfeas : (List.range emptyCartel.n).sublists.filter
      (fun S => lpFeasible emptyCartel S) = [] := by
    have hf : lpFeasible emptyCartel [] = false := by
      simp only [lpFeasible, lp_constraint_lhs, List.map_nil, List.sum_nil,
        OVERRIDE_THRESHOLD, add_zero, ge_iff_le]
      norm_num
    have hsub : (List.range emptyCartel.n).sublists = [[]] := rfl
    simp [hsub, List.filter_cons, hf]
  simp only [find_minimum_cartel, hfeas, argminBy, Option.getD_none, hp]

/-- Decomposing membership in the brute-force result list: every entry is a
coalition of at least `MIN_LEGISLATORS` members drawn from the population
that can override, paired with its attack cost. -/
theorem bf_results_mem (c : Cartel) (e : List ℕ × ℚ) (he : e ∈ bf_results c) :
    ∃ m, e = (m, calculate_attack_cost c m) ∧ can_override c m = true ∧
      List.Sublist m (List.range c.n) ∧ MIN_LEGISLATORS ≤ m.length := by
  rw [bf_results] at he
  rcases List.mem_map.mp he with ⟨m, hm, rfl⟩
  rcases List.mem_filter.mp hm with ⟨hcand, hov⟩
  rcases List.mem_flatMap.mp hcand with ⟨size, hsize, hcomb⟩
  have hsub := sublist_of_mem_combos size (List.range c.n) m hcomb
  have hlen := length_of_mem_combos size (List.range c.n) m hcomb
  simp only [bf_sizes, MIN_LEGISLATORS] at hsize ⊢
  obtain ⟨i, hi, hEq⟩ := List.mem_range'.mp hsize
  exact ⟨m, rfl, hov, hsub, by omega⟩

/-- C3: whenever the brute-force enumeration runs without error (non-zero
total sums) on a population with nonnegative market value and reputations and
finds at least one override-capable coalition, the LP strategy returns a
feasible (override-capable) solution whose total cost is at most the cost of
every brute-force coalition — in particular at most the brute-force
optimum. -/
theorem lp_relaxation_lower_bound (c : Cartel)
    (hs : c.scores.sum ≠ 0) (hr : c.reputations.sum ≠ 0)
    (hmv : 0 ≤ c.market_value) (hrep : ∀ r ∈ c.reputations, 0 ≤ r)
    (bl : List (List ℕ × ℚ)) (hbf : brute_force_cartels c = some bl)
    (hne : bl ≠ []) :
    ∃ members cost power, find_minimum_cartel c = some (members, cost, power) ∧
      can_override c members = true ∧ ∀ e ∈ bl, cost ≤ e.2 := by
  rw [brute_force_cartels, if_neg (by rintro ⟨h, -⟩; rcases h with h | h <;> contradiction)]
    at hbf
  have hbl : bl = (bf_results c).mergeSort (fun a b => a.2 ≤ b.2) :=
    (Option.some.injEq _ _ ▸ hbf).symm
  have hperm : ∀ e, e ∈ bl → e ∈ bf_results c := by
    intro e he
    rw [hbl] at he
    exact (List.mergeSort_perm (bf_results c) _).mem_iff.mp he
  have hmemF : ∀ m : List ℕ, can_override c m = true → List.Sublist m (List.range c.n) →
      m ∈ (List.range c.n).sublists.filter (fun S => lpFeasible c S) := by
    intro m hov hsub
    refine List.mem_filter.mpr ⟨List.mem_sublists.mpr hsub, ?_⟩
    rw [lpFeasible_eq_can_override]
    exact hov
  obtain ⟨e0, he0⟩ := List.exists_mem_of_ne_nil bl hne
  obtain ⟨m0, he0eq, hov0, hsub0, hlen0⟩ := bf_results_mem c e0 (hperm e0 he0)
  have hFne : (List.range c.n).sublists.filter (fun S => lpFeasible c S) ≠ [] := by
    intro h
    have := hmemF m0 hov0 hsub0
    rw [h] at this
    exact absurd this (List.not_mem_nil m0)
  obtain ⟨a, ha_eq, haF, hamin⟩ := argminBy_spec (fun S => lp_cost c S)
    ((List.range c.n).sublists.filter (fun S => lpFeasible c S)) hFne
  have hpow : calculate_cartel_power c a = some (cartelPowerVal c a) := by
    rw [calculate_cartel_power, if_neg]
    push_neg
    exact ⟨hs, hr⟩
  have hovA : can_override c a = true := by
    rw [← lpFeasible_eq_can_override]
    exact (List.mem_filter.mp haF).2
  refine ⟨a, lp_cost c a, cartelPowerVal c a, ?_, hovA, ?_⟩
  · simp only [find_minimum_cartel, ha_eq, Option.getD_some, hpow]
  · intro e he
    obtain ⟨m, heq, hov, hsub, hlen⟩ := bf_results_mem c e (hperm e he)
    have h1 : lp_cost c a ≤ lp_cost c m := hamin m (hmemF m hov hsub)
    have h2 : lp_cost c m ≤ calculate_attack_cost c m :=
      lp_cost_le_attack_cost c hmv hrep m
        (by simp only [MIN_LEGISLATORS] at hlen; omega)
    rw [heq]
    exact le_trans h1 h2

/-- Witness for C3 on the uniform scenario population. -/
theorem lp_relaxation_lower_bound_witness :
    ∃ members cost power,
      find_minimum_cartel uniformCartel = some (members, cost, power) ∧
      can_override uniformCartel members = true ∧
      ∀ e ∈ [(([0, 1, 2, 3, 4, 5, 6] : List ℕ), (276367 : ℚ)/100)], cost ≤ e.2 :=
  lp_relaxation_lower_bound uniformCartel
    (by norm_num [uniformCartel, List.sum_cons])
    (by norm_num [uniformCartel, List.sum_cons])
    (by norm_num [uniformCartel])
    (by intro r hr; simp [uniformCartel] at hr; subst hr; norm_num)
    [([0, 1, 2, 3, 4, 5, 6], 276367/100)] bf_uniform_eval (by simp)

/-- C4 counterexample: on the uniform 7-participant population the exact
enumeration strategy returns a single minimum cartel of size 7, not 5 — it
only enumerates coalition sizes from `MIN_LEGISLATORS` (7) upward. -/
theorem bf_uniform_size_counterexample :
    brute_force_cartels uniformCartel = some [([0, 1, 2, 3, 4, 5, 6], 276367/100)] ∧
    ([0, 1, 2, 3, 4, 5, 6] : List ℕ).length ≠ 5 :=
  ⟨bf_uniform_eval, by decide⟩

/-- C4 amended: on the uniform population (scores = reputations = 100 across
7 participants, threshold 0.6666) a coalition can override exactly when it
has at least 5 members, and the LP strategy returns a minimum cartel of 5
members at total cost 1515; the exact-enumeration strategy however starts at
`MIN_LEGISLATORS = 7` and returns the single full 7-member coalition. -/
theorem uniform_min_cartel_amended :
    (∀ S ∈ (List.range 7).sublists, (lpFeasible uniformCartel S = true ↔ 5 ≤ S.length)) ∧
    (∃ members power, find_minimum_cartel uniformCartel = some (members, 1515, power) ∧
      members.length = 5) ∧
    brute_force_cartels uniformCartel = some [([0, 1, 2, 3, 4, 5, 6], 276367/100)] := by
  have hbound : ∀ S : List ℕ, S ∈ (List.range 7).sublists → ∀ i ∈ S, i < 7 := by
    intro S hS i hi
    exact List.mem_range.mp ((List.mem_sublists.mp hS).subset hi)
  have hchar : ∀ S ∈ (List.range 7).sublists,
      (lpFeasible uniformCartel S = true ↔ 5 ≤ S.length) := by
    intro S hS
    exact uniform_feasible_iff S (hbound S hS)
  refine ⟨hchar, ?_, bf_uniform_eval⟩
  have hn : List.range uniformCartel.n = List.range 7 := rfl
  have h5F : [0, 1, 2, 3, 4] ∈ (List.range uniformCartel.n).sublists.filter
      (fun S => lpFeasible uniformCartel S) := by
    rw [hn]
    refine List.mem_filter.mpr ⟨List.mem_sublists.mpr ?_, ?_⟩
    · have hsp : List.range 7 = [0, 1, 2, 3, 4] ++ [5, 6] := rfl
      rw [hsp]
      exact List.sublist_append_left _ _
    · exact (uniform_feasible_iff [0, 1, 2, 3, 4] (by decide)).mpr (by decide)
  have hFne : (List.range uniformCartel.n).sublists.filter
      (fun S => lpFeasible uniformCartel S) ≠ [] := by
    intro h
    rw [h] at h5F
    exact absurd h5F (List.not_mem_nil _)
  obtain ⟨a, ha_eq, haF, hamin⟩ := argminBy_spec (fun S => lp_cost uniformCartel S)
    ((List.range uniformCartel.n).sublists.filter (fun S => lpFeasible uniformCartel S)) hFne
  obtain ⟨haSub, haFeas⟩ := List.mem_filter.mp haF
  rw [hn] at haSub
  have haBound : ∀ i ∈ a, i < 7 := hbound a haSub
  have hlenGe : 5 ≤ a.length := (uniform_feasible_iff a haBound).mp haFeas
  have hmin : lp_cost uniformCartel a ≤ lp_cost uniformCartel [0, 1, 2, 3, 4] :=
    hamin _ h5F
  have h5cost : lp_cost uniformCartel [0, 1, 2, 3, 4] = 1515 := by
    rw [lp_cost_uniform [0, 1, 2, 3, 4] (by decide)]
    norm_num
  have hacost : lp_cost uniformCartel a = 303 * a.length := lp_cost_uniform a haBound
  have hlenLe : a.length ≤ 5 := by
    by_contra hgt
    push_neg at hgt
    have hq : (6:ℚ) ≤ (a.length : ℚ) := by exact_mod_cast hgt
    rw [hacost, h5cost] at hmin
    linarith
  have hlen : a.length = 5 := le_antisymm hlenLe hlenGe
  have hcost : lp_cost uniformCartel a = 1515 := by
    rw [hacost, hlen]
    norm_num
  refine ⟨a, cartelPowerVal uniformCartel a, ?_, hlen⟩
  have hpow : calculate_cartel_power uniformCartel a
      = some (cartelPowerVal uniformCartel a) := by
    rw [calculate_cartel_power, if_neg]
    push_neg
    constructor <;> norm_num [uniformCartel, List.sum_cons]
  simp only [find_minimum_cartel, ha_eq, Option.getD_some, hpow, hcost]

end CartelAnalysis

end Futarchy
